import Mathlib

/-!
Shallow embedding of the plush-ai repository's core algorithms:
the operation log (`OperationStackManager`, src/plush-ai-app/src/services/sessionStorage.ts),
the aspect-fit geometry (src/ios/ImageWarp/ImageWarpModule.swift and
src/plush-ai-app/src/utils/imageUtils.ts), and the pinch/bulge fragment
shader (src/plush-ai-app/src/components/MagnifierToolGL.tsx).
JavaScript numbers are modelled as exact rationals where the code only
does field arithmetic; the GLSL shader is modelled over the reals because
it uses a square root. JS arrays are lists with `push` appending at the
end, `pop` removing the last element and `shift` removing the head.
-/

set_option maxRecDepth 100000

namespace PlushAI

/-- Point data model from src/plush-ai-app/src/types/index.ts. -/
structure Point where
  x : ℚ
  y : ℚ
deriving DecidableEq, Repr

/-- Stroke data model from src/plush-ai-app/src/types/index.ts. -/
structure Stroke where
  points : List Point
  size : ℚ
  strength : ℚ
  softness : ℚ
deriving DecidableEq, Repr

/-- The nine operation kinds (the `type` discriminator of the `Operation`
union in src/plush-ai-app/src/types/index.ts). -/
inductive OpType where
  | liquify
  | magnifier
  | twirl
  | bodyParam
  | faceParam
  | inpaint
  | background
  | transform
  | color
deriving DecidableEq, Repr

/-- The tagged `Operation` union from src/plush-ai-app/src/types/index.ts,
with each variant carrying the fields of its kind. -/
inductive Operation where
  | liquify (strokes : List Stroke) (freezeMaskUri : Option String)
  | magnifier (center : Point) (radius : ℚ) (scale : ℚ)
  | twirl (center : Point) (radius : ℚ) (angle : ℚ)
  | bodyParam (key : String) (value : ℚ)
  | faceParam (key : String) (value : ℚ)
  | inpaint (polygon : List Point)
  | background (mode : String) (amount : Option ℚ) (replaceUri : Option String)
  | transform (kind : String)
  | color (exposure saturation temperature tint : Option ℚ)
deriving DecidableEq, Repr

/-- The `type` discriminator of an operation. -/
def Operation.type : Operation → OpType
  | .liquify _ _ => .liquify
  | .magnifier _ _ _ => .magnifier
  | .twirl _ _ _ => .twirl
  | .bodyParam _ _ => .bodyParam
  | .faceParam _ _ => .faceParam
  | .inpaint _ => .inpaint
  | .background _ _ _ => .background
  | .transform _ => .transform
  | .color _ _ _ _ => .color

/-- The `strokes` field of a liquify operation (empty for other kinds). -/
def Operation.strokesOf : Operation → List Stroke
  | .liquify s _ => s
  | _ => []

/-- The `freezeMaskUri` field of a liquify operation. -/
def Operation.freezeMaskOf : Operation → Option String
  | .liquify _ m => m
  | _ => none

/-- The `key` field of a `bodyParam` or `faceParam` operation. -/
def Operation.paramKey : Operation → Option String
  | .bodyParam k _ => some k
  | .faceParam k _ => some k
  | _ => none

/-- The `maxStackSize` field of `OperationStackManager`
(sessionStorage.ts line 239). -/
def maxStackSize : Nat := 50

/-- State of an `OperationStackManager`
(sessionStorage.ts lines 235-246): the three sequences
`operations`, `undoStack`, `redoStack`. -/
structure OperationStackManager where
  operations : List Operation
  undoStack : List (List Operation)
  redoStack : List (List Operation)
deriving DecidableEq, Repr

/-- The constructor `new OperationStackManager(initialOps)`
(sessionStorage.ts lines 242-246). -/
def mkManager (initialOps : List Operation) : OperationStackManager :=
  { operations := initialOps, undoStack := [], redoStack := [] }

/-- The capacity step `if (stack.length > this.maxStackSize) stack.shift()`
applied after a push in `addOperation`, `addOperations` and `undo`. -/
def capBounded (stack : List (List Operation)) : List (List Operation) :=
  if stack.length > maxStackSize then stack.tail else stack

/-- `OperationStackManager.addOperation` (sessionStorage.ts lines 248-258). -/
def addOperation (s : OperationStackManager) (op : Operation) :
    OperationStackManager :=
  { operations := s.operations ++ [op]
    undoStack := capBounded (s.undoStack ++ [[op]])
    redoStack := [] }

/-- `OperationStackManager.addOperations` (sessionStorage.ts lines 260-270). -/
def addOperations (s : OperationStackManager) (ops : List Operation) :
    OperationStackManager :=
  { operations := s.operations ++ ops
    undoStack := capBounded (s.undoStack ++ [ops])
    redoStack := [] }

/-- `OperationStackManager.canUndo` (sessionStorage.ts lines 308-310). -/
def canUndo (s : OperationStackManager) : Bool :=
  s.undoStack.length > 0

/-- `OperationStackManager.canRedo` (sessionStorage.ts lines 312-314). -/
def canRedo (s : OperationStackManager) : Bool :=
  s.redoStack.length > 0

/-- JavaScript `Array.prototype.splice(start, deleteCount)` start-index
normalisation: a negative `start` counts from the end (clamped at 0), a
non-negative one is clamped at the length. -/
def jsSpliceStart (len : Nat) (start : Int) : Nat :=
  if start < 0 then (max ((len : Int) + start) 0).toNat
  else min start.toNat len

/-- JavaScript `Array.prototype.splice(start, deleteCount)` on an array
modelled as a list: returns the removed elements and the remaining array. -/
def jsSplice {α : Type} (l : List α) (start : Int) (deleteCount : Nat) :
    List α × List α :=
  ((l.drop (jsSpliceStart l.length start)).take deleteCount,
    l.take (jsSpliceStart l.length start)
      ++ l.drop (jsSpliceStart l.length start + deleteCount))

/-- `OperationStackManager.undo` (sessionStorage.ts lines 272-293): pop the
last undo group, splice that many trailing elements out of `operations`,
push the removed elements onto the (capacity-bounded) redo stack, and
return them; `null` (here `none`) when the undo stack is empty. -/
def undo (s : OperationStackManager) :
    Option (List Operation) × OperationStackManager :=
  match s.undoStack.getLast? with
  | none => (none, s)
  | some opsToUndo =>
      let undoCount := opsToUndo.length
      let spliced :=
        jsSplice s.operations
          ((s.operations.length : Int) - (undoCount : Int)) undoCount
      (some spliced.1,
        { operations := spliced.2
          undoStack := s.undoStack.dropLast
          redoStack := capBounded (s.redoStack ++ [spliced.1]) })

/-- `OperationStackManager.redo` (sessionStorage.ts lines 295-306): pop the
last redo group, re-append it to `operations`, push it back onto the undo
stack (no capacity check here, faithful to the source). -/
def redo (s : OperationStackManager) :
    Option (List Operation) × OperationStackManager :=
  match s.redoStack.getLast? with
  | none => (none, s)
  | some opsToRedo =>
      (some opsToRedo,
        { operations := s.operations ++ opsToRedo
          undoStack := s.undoStack ++ [opsToRedo]
          redoStack := s.redoStack.dropLast })

/-- `OperationStackManager.replaceOperationsOfType`
(sessionStorage.ts lines 345-353). -/
def replaceOperationsOfType (s : OperationStackManager) (t : OpType)
    (op : Operation) : OperationStackManager :=
  { operations := (s.operations.filter fun o => decide (¬ o.type = t)) ++ [op]
    undoStack := s.undoStack ++ [[op]]
    redoStack := [] }

/-- `OperationStackManager.resetTool` (sessionStorage.ts lines 366-375):
remove all operations of the given kind and push them as one undo group,
clearing the redo stack — but only when at least one such operation
exists; otherwise the guard `if (toolOps.length > 0)` leaves the whole
state untouched. -/
def resetTool (s : OperationStackManager) (toolType : OpType) :
    OperationStackManager :=
  if (s.operations.filter fun o => decide (o.type = toolType)).length > 0 then
    { operations := s.operations.filter fun o => decide (¬ o.type = toolType)
      undoStack :=
        s.undoStack ++ [s.operations.filter fun o => decide (o.type = toolType)]
      redoStack := [] }
  else s

/-- Accumulator step modelling JavaScript `Map` key insertion: a new key is
appended at the end, an existing key keeps its position. -/
def pushNew {α : Type} [DecidableEq α] (acc : List α) (x : α) : List α :=
  if x ∈ acc then acc else acc ++ [x]

/-- The distinct operation types of a list in first-occurrence order: the
key order of the `typeGroups` map built in `optimizeOperations`
(sessionStorage.ts lines 421-429). -/
def distinctTypes (ops : List Operation) : List OpType :=
  (ops.map Operation.type).foldl pushNew []

/-- The distinct `bodyParam`/`faceParam` keys of a list in first-occurrence
order: the key order of the `paramMap` built in `optimizeOperations`
(sessionStorage.ts lines 454-459). -/
def distinctParamKeys (ops : List Operation) : List String :=
  (ops.filterMap Operation.paramKey).foldl pushNew []

/-- The `bodyParam`/`faceParam` arm of the `optimizeOperations` switch
(sessionStorage.ts lines 452-461): `paramMap.set(op.key, op)` keeps, for
each key in first-occurrence order, the last operation with that key. -/
def paramCoalesce (ops : List Operation) : List Operation :=
  (distinctParamKeys ops).filterMap fun k =>
    (ops.filter fun o => decide (o.paramKey = some k)).getLast?

/-- One iteration of the group loop of `optimizeOperations`
(sessionStorage.ts lines 431-472): a single-element group is kept as is;
otherwise liquify groups merge strokes, `bodyParam`/`faceParam` groups
keep the last value per key, `color` keeps the last operation, and every
other kind keeps all its operations. -/
def coalesceGroup (ops : List Operation) : List Operation :=
  if ops.length = 1 then ops
  else
    match ops.head? with
    | none => []
    | some first =>
        if first.type = OpType.liquify then
          if ((ops.filter fun o => decide (o.type = OpType.liquify)).flatMap
                Operation.strokesOf).length > 0 then
            match (ops.filter fun o => decide (o.type = OpType.liquify)).getLast? with
            | some lastOp =>
                [Operation.liquify
                  ((ops.filter fun o => decide (o.type = OpType.liquify)).flatMap
                    Operation.strokesOf)
                  lastOp.freezeMaskOf]
            | none => []
          else []
        else if first.type = OpType.bodyParam ∨ first.type = OpType.faceParam then
          paramCoalesce ops
        else if first.type = OpType.color then
          match ops.getLast? with
          | some lastOp => [lastOp]
          | none => []
        else ops

/-- `OperationStackManager.optimizeOperations`
(sessionStorage.ts lines 419-476): rebuild `operations` by coalescing each
type group; `undoStack` and `redoStack` are left untouched by the source. -/
def optimizeOperations (s : OperationStackManager) : OperationStackManager :=
  { s with
      operations :=
        (distinctTypes s.operations).flatMap fun t =>
          coalesceGroup (s.operations.filter fun o => decide (o.type = t)) }

/-- Folding `addOperation` over a list of operations: the effect of a
sequence of `addOperation` calls. -/
def applyAppends (s : OperationStackManager) (l : List Operation) :
    OperationStackManager :=
  l.foldl addOperation s

/-- Width/height pair, for `CGSize` arguments of the geometry code. -/
structure SizeQ where
  w : ℚ
  h : ℚ
deriving DecidableEq, Repr

/-- Axis-aligned rectangle, for the `CGRect` returned by `aspectFitRect`. -/
structure RectQ where
  x : ℚ
  y : ℚ
  w : ℚ
  h : ℚ
deriving DecidableEq, Repr

/-- `ImageWarpView.aspectFitRect`
(src/ios/ImageWarp/ImageWarpModule.swift lines 92-101): the largest
centered rectangle of the image's aspect ratio inside the container. -/
def aspectFitRect (imageSize container : SizeQ) : RectQ :=
  let rw := container.w / imageSize.w
  let rh := container.h / imageSize.h
  let scale := min rw rh
  let w := imageSize.w * scale
  let h := imageSize.h * scale
  { x := (container.w - w) / 2
    y := (container.h - h) / 2
    w := w
    h := h }

/-- JavaScript `Math.round`: round half toward positive infinity. -/
def jsRound (q : ℚ) : ℤ := ⌊q + 1 / 2⌋

/-- `ImageUtils.calculateAspectRatioFit`
(src/plush-ai-app/src/utils/imageUtils.ts lines 21-32): the aspect-fit
size, rounded to whole pixels by `Math.round`. -/
def calculateAspectRatioFit (srcWidth srcHeight maxWidth maxHeight : ℚ) :
    ℤ × ℤ :=
  let ratio := min (maxWidth / srcWidth) (maxHeight / srcHeight)
  (jsRound (srcWidth * ratio), jsRound (srcHeight * ratio))

/-- The view-space to image-space conversion of `ImageWarpView.exportJPEG`
(ImageWarpModule.swift lines 153-158): flip the vertical axis from the
UIKit top-left origin to the Core Image bottom-left origin, subtract the
fit rectangle's origin, and multiply by `imageExtent / fitRect.size`. -/
def viewToImage (imageSize container : SizeQ) (p : Point) : Point :=
  let fit := aspectFitRect imageSize container
  let sx := imageSize.w / fit.w
  let sy := imageSize.h / fit.h
  { x := (p.x - fit.x) * sx
    y := ((container.h - p.y) - fit.y) * sy }

/-- The image-space to view-space conversion of
`ImageWarpView.makePreviewCIImage` (ImageWarpModule.swift lines 83-90):
scale by `fitRect.size / imageExtent`, translate by the fit rectangle's
origin, then flip the vertical axis back from the Core Image bottom-left
origin to the UIKit top-left origin (the `bounds.height - y` convention
used for `centerPx` in ImageWarpModule.swift lines 113-116 and 157). -/
def imageToView (imageSize container : SizeQ) (q : Point) : Point :=
  let fit := aspectFitRect imageSize container
  let scaleX := fit.w / imageSize.w
  let scaleY := fit.h / imageSize.h
  { x := q.x * scaleX + fit.x
    y := container.h - (q.y * scaleY + fit.y) }

/-- Real-valued 2D vector for the GLSL fragment shader embedding. -/
structure Vec2 where
  x : ℝ
  y : ℝ

/-- GLSL `length` of a 2D vector. -/
noncomputable def glLength (v : Vec2) : ℝ :=
  Real.sqrt (v.x ^ 2 + v.y ^ 2)

/-- The `bulge` fragment shader of MagnifierToolGL.tsx (lines 14-55),
expressed as the map from an output pixel coordinate (`uv * resolution`)
to the pixel coordinate sampled from the source texture (the argument of
the final `texture2D`, before the division by `resolution`). The shader
computes `toCenter = center - coord`, and inside the radius displaces by
`coord - toCenter * amount` with the quadratic bulge falloff for
`strength > 0` and the `1 - t^2` pinch falloff otherwise; it contains no
clamping of the sample coordinate. -/
noncomputable def bulgeFragSample (center p : Vec2) (radius strength : ℝ) :
    Vec2 :=
  let toCenter : Vec2 := ⟨center.x - p.x, center.y - p.y⟩
  let distance := glLength toCenter
  if distance < radius then
    let percent := distance / radius
    let amount :=
      if strength > 0 then ((1 - percent) * (1 - percent)) * strength
      else -((1 - percent * percent) * |strength|)
    ⟨p.x - toCenter.x * amount, p.y - toCenter.y * amount⟩
  else p

/-- The displacement factor of the §4.2 warp-kernel contract, written from
the claim's own words (`strength * (1 - t)^2` for bulge, `-|strength| *
(1 - t^2)` for pinch) to compare with the shader's computation. -/
noncomputable def claimAmount (t strength : ℝ) : ℝ :=
  if strength > 0 then strength * (1 - t) ^ 2 else -(|strength| * (1 - t ^ 2))

/-- Distinct concrete operations used to build witness states. -/
def testOp (n : Nat) : Operation := .magnifier ⟨n, 0⟩ 1 1

/-- A concrete magnifier operation used to build witness states. -/
def cexOp : Operation := .magnifier ⟨100, 100⟩ 50 1

/-- A reachable state with a non-empty redo stack: one append followed by
one undo. -/
def cexState : OperationStackManager :=
  (undo (addOperation (mkManager []) cexOp)).2

/-- The state after one append of `cexOp` to a fresh log. -/
def s1op : OperationStackManager := addOperation (mkManager []) cexOp

/-- The state of the §8 coalesce scenario: a fresh log after appending
`faceParam{key:'eyeSize', value:5}` then `faceParam{key:'eyeSize', value:8}`. -/
def s2eyes : OperationStackManager :=
  addOperation (addOperation (mkManager []) (.faceParam "eyeSize" 5))
    (.faceParam "eyeSize" 8)

/-- The capacity step keeps the most recently pushed group at the top. -/
lemma getLast?_capBounded_concat (xs : List (List Operation))
    (a : List Operation) :
    (capBounded (xs ++ [a])).getLast? = some a := by
  unfold capBounded
  split
  · rename_i h
    cases xs with
    | nil => simp [maxStackSize] at h
    | cons b bs =>
        rw [List.cons_append, List.tail_cons]
        exact List.getLast?_concat _
  · exact List.getLast?_concat _

/-- The capacity step never empties a stack that was just pushed onto. -/
lemma capBounded_concat_ne_nil (xs : List (List Operation))
    (a : List Operation) :
    capBounded (xs ++ [a]) ≠ [] := by
  unfold capBounded
  split
  · rename_i h
    apply List.ne_nil_of_length_pos
    rw [List.length_tail]
    unfold maxStackSize at h
    omega
  · simp

/-- Splicing the last `1` element out of `l ++ [a]` removes exactly `[a]`. -/
lemma jsSplice_last {α : Type} (l : List α) (a : α) :
    jsSplice (l ++ [a]) (((l ++ [a]).length : Int) - 1) 1 = ([a], l) := by
  unfold jsSplice jsSpliceStart
  have hlen : (l ++ [a]).length = l.length + 1 := by simp
  rw [hlen]
  rw [if_neg (by omega)]
  have hstart : ((l.length + 1 : Nat) : Int) - 1 = (l.length : Int) := by
    push_cast
    ring
  rw [hstart]
  have htn : ((l.length : Int)).toNat = l.length := Int.toNat_natCast _
  rw [htn, min_eq_left (by omega)]
  have hdrop : (l ++ [a]).drop l.length = [a] := List.drop_left l [a]
  have htake : (l ++ [a]).take l.length = l := List.take_left l [a]
  rw [hdrop, htake]
  have hdrop2 : (l ++ [a]).drop (l.length + 1) = [] := by
    rw [← hlen]
    exact List.drop_length _
  rw [hdrop2]
  simp

/-- After an `addOperation`, `undo` removes exactly the appended operation
and parks it as the single redo group. -/
lemma undo_addOperation (s : OperationStackManager) (op : Operation) :
    undo (addOperation s op) =
      (some [op],
        { operations := s.operations
          undoStack := (capBounded (s.undoStack ++ [[op]])).dropLast
          redoStack := [[op]] }) := by
  unfold undo
  have hu : (addOperation s op).undoStack = capBounded (s.undoStack ++ [[op]]) :=
    rfl
  rw [hu, getLast?_capBounded_concat]
  have hops : (addOperation s op).operations = s.operations ++ [op] := rfl
  simp only
  rw [hops]
  have hsplice :
      jsSplice (s.operations ++ [op])
        (((s.operations ++ [op]).length : Int) - (([op].length : Nat) : Int))
        [op].length
        = ([op], s.operations) := by
    simp only [List.length_singleton, Nat.cast_one]
    exact jsSplice_last s.operations op
  rw [hsplice]
  rfl

/-- C1: for every log state reachable from a freshly constructed manager by
any sequence of `addOperation` calls, `undo()` immediately followed by
`redo()` restores the `operations` sequence to exactly its pre-undo state
(same elements in the same order). -/
theorem claim_C1_undo_redo_inverse (init l : List Operation) :
    ((redo (undo (applyAppends (mkManager init) l)).2).2).operations
      = (applyAppends (mkManager init) l).operations := by
  rcases List.eq_nil_or_concat l with rfl | ⟨l', a, rfl⟩
  · rfl
  · rw [List.concat_eq_append]
    unfold applyAppends
    rw [List.foldl_append]
    simp only [List.foldl_cons, List.foldl_nil]
    rw [undo_addOperation]
    rfl

/-- C2: calling `undo()` on a state whose undo stack is empty returns
`null` and leaves the entire state (operations, undo stack, redo stack)
completely unmodified. -/
theorem claim_C2_undo_empty_noop (s : OperationStackManager)
    (h : s.undoStack = []) : undo s = (none, s) := by
  unfold undo
  rw [h]
  rfl

/-- Witness for C2 at the concrete empty manager. -/
theorem claim_C2_witness : undo (mkManager []) = (none, mkManager []) :=
  claim_C2_undo_empty_noop (mkManager []) rfl

/-- C3: appending 60 single-operation groups to a fresh log leaves an undo
stack of exactly 50 groups (appends 11..60, i.e. the 10 oldest groups were
evicted and are unrecoverable via undo, while `operations` keeps all 60);
and in general every `addOperation` on a full undo stack of `maxStackSize`
groups evicts the oldest group. -/
theorem claim_C3_capacity_bound :
    ((applyAppends (mkManager []) ((List.range 60).map testOp)).undoStack.length
        = 50
      ∧ (applyAppends (mkManager []) ((List.range 60).map testOp)).undoStack
          = ((List.range 60).drop 10).map (fun i => [testOp i])
      ∧ (applyAppends (mkManager []) ((List.range 60).map testOp)).operations
          = (List.range 60).map testOp)
    ∧ ∀ (s : OperationStackManager) (op : Operation),
        s.undoStack.length = maxStackSize →
        (addOperation s op).undoStack = s.undoStack.tail ++ [[op]] := by
  constructor
  · exact ⟨by decide, by decide, by decide⟩
  · intro s op h
    show capBounded (s.undoStack ++ [[op]]) = s.undoStack.tail ++ [[op]]
    unfold capBounded
    rw [if_pos (by simp [h])]
    cases hs : s.undoStack with
    | nil => rw [hs] at h; simp [maxStackSize] at h
    | cons b bs => rw [List.cons_append, List.tail_cons, List.tail_cons]

/-- Witness for the capacity-eviction part of C3: a log with exactly
`maxStackSize` undo groups, to which `claim_C3_capacity_bound` applies. -/
theorem claim_C3_witness :
    (applyAppends (mkManager []) ((List.range 50).map testOp)).undoStack.length
        = maxStackSize
    ∧ (addOperation (applyAppends (mkManager []) ((List.range 50).map testOp))
          (testOp 50)).undoStack
        = (applyAppends (mkManager [])
            ((List.range 50).map testOp)).undoStack.tail ++ [[testOp 50]] :=
  ⟨by decide, claim_C3_capacity_bound.2 _ _ (by decide)⟩

/-- C4 counterexample: the claim asserts that EVERY `resetTool` call empties
the redo stack, but `resetTool` is guarded by `if (toolOps.length > 0)`;
on the reachable state `cexState` (one append, then one undo, so the redo
stack holds one group) a `resetTool` for a kind with no live operation
leaves the whole state — including the non-empty redo stack — unchanged. -/
theorem claim_C4_counterexample :
    cexState.redoStack = [[cexOp]]
    ∧ resetTool cexState OpType.twirl = cexState
    ∧ (resetTool cexState OpType.twirl).redoStack ≠ [] := by decide

/-- C4 (amended): the redo stack is emptied by every append
(`addOperation`/`addOperations`) and every `replaceOperationsOfType`, and
by every `resetTool` call that finds at least one operation of the given
kind; it is never emptied by `undo()`: after an `undo()` on a non-empty
undo stack the redo stack is non-empty. -/
theorem claim_C4_amended (s : OperationStackManager) (op : Operation)
    (ops : List Operation) (t : OpType) :
    (addOperation s op).redoStack = []
    ∧ (addOperations s ops).redoStack = []
    ∧ (replaceOperationsOfType s t op).redoStack = []
    ∧ ((s.operations.filter fun o => decide (o.type = t)) ≠ [] →
        (resetTool s t).redoStack = [])
    ∧ (s.undoStack ≠ [] → (undo s).2.redoStack ≠ []) := by
  refine ⟨rfl, rfl, rfl, ?_, ?_⟩
  · intro h
    unfold resetTool
    split
    · rfl
    · rename_i hc
      exact absurd (List.length_eq_zero.mp (by omega)) h
  · intro h
    rcases List.eq_nil_or_concat s.undoStack with h0 | ⟨us, g, hg⟩
    · exact absurd h0 h
    · rw [List.concat_eq_append] at hg
      unfold undo
      rw [hg, List.getLast?_concat]
      exact capBounded_concat_ne_nil _ _

/-- Witness for C4 (amended) at the concrete states `s1op` and `cexState`. -/
theorem claim_C4_amended_witness :
    ((s1op.operations.filter fun o => decide (o.type = OpType.magnifier)) ≠ []
      ∧ (resetTool s1op OpType.magnifier).redoStack = [])
    ∧ (s1op.undoStack ≠ [] ∧ (undo s1op).2.redoStack ≠ []) :=
  ⟨⟨by decide,
      (claim_C4_amended s1op cexOp [] OpType.magnifier).2.2.2.1 (by decide)⟩,
    ⟨by decide,
      (claim_C4_amended s1op cexOp [] OpType.magnifier).2.2.2.2 (by decide)⟩⟩

/-- C6 evidence (code bug): `optimizeOperations` coalesces the two
`faceParam{key:'eyeSize'}` appends into one operation but leaves both undo
groups on the undo stack — `canUndo()` is still `true` afterwards, while
both the spec (§4.4 `coalesce()`) and the claim require the undo and redo
history to be discarded (the stale undo groups no longer correspond to
trailing segments of `operations`, the invariant `undo()` relies on). -/
theorem claim_C6_optimize_keeps_history :
    (optimizeOperations s2eyes).operations = [Operation.faceParam "eyeSize" 8]
    ∧ (optimizeOperations s2eyes).undoStack
        = [[Operation.faceParam "eyeSize" 5], [Operation.faceParam "eyeSize" 8]]
    ∧ canUndo (optimizeOperations s2eyes) = true
    ∧ (optimizeOperations s2eyes).redoStack = [] := by decide

/-- C10: `resetTool(type)` on a log containing no operation of that kind
changes nothing at all: the operations sequence, the undo stack and the
redo stack are each left exactly as they were. -/
theorem claim_C10_resetTool_frame (s : OperationStackManager) (t : OpType)
    (h : s.operations.filter (fun o => decide (o.type = t)) = []) :
    resetTool s t = s := by
  unfold resetTool
  rw [h]
  rfl

/-- Witness for C10 at the reachable state `cexState` (whose redo stack is
non-empty, so the frame property is not vacuous there). -/
theorem claim_C10_witness :
    (cexState.operations.filter fun o => decide (o.type = OpType.faceParam)) = []
    ∧ resetTool cexState OpType.faceParam = cexState :=
  ⟨by decide,
    claim_C10_resetTool_frame cexState OpType.faceParam (by decide)⟩

/-- C7: for positive image and container dimensions, `aspectFitRect`
returns exactly the rectangle scaled by
`min(containerW/imageW, containerH/imageH)`, centered in the container
(equal margins on both sides), lying inside the container and preserving
the image's aspect ratio — all as exact rational identities, with no
rounding; and on the §8 scenario `(4000,3000)` in `(800,600)` it yields
origin `(0,0)` and size `(800,600)` (as does the rounded TypeScript
`calculateAspectRatioFit` at this input). -/
theorem claim_C7_aspectFit (img cont : SizeQ)
    (hiw : 0 < img.w) (hih : 0 < img.h) (hcw : 0 < cont.w) (hch : 0 < cont.h) :
    ((aspectFitRect img cont).w
        = img.w * min (cont.w / img.w) (cont.h / img.h)
      ∧ (aspectFitRect img cont).h
        = img.h * min (cont.w / img.w) (cont.h / img.h))
    ∧ ((aspectFitRect img cont).x * 2 + (aspectFitRect img cont).w = cont.w
      ∧ (aspectFitRect img cont).y * 2 + (aspectFitRect img cont).h = cont.h)
    ∧ ((aspectFitRect img cont).w ≤ cont.w
      ∧ (aspectFitRect img cont).h ≤ cont.h
      ∧ 0 ≤ (aspectFitRect img cont).x ∧ 0 ≤ (aspectFitRect img cont).y)
    ∧ (aspectFitRect img cont).w * img.h = (aspectFitRect img cont).h * img.w
    ∧ aspectFitRect ⟨4000, 3000⟩ ⟨800, 600⟩ = ⟨0, 0, 800, 600⟩
    ∧ calculateAspectRatioFit 4000 3000 800 600 = (800, 600) := by
  obtain ⟨iw, ih⟩ := img
  obtain ⟨cw, ch⟩ := cont
  have hiw0 : (0 : ℚ) < iw := hiw
  have hih0 : (0 : ℚ) < ih := hih
  have hwle : iw * min (cw / iw) (ch / ih) ≤ cw := by
    calc iw * min (cw / iw) (ch / ih)
        ≤ iw * (cw / iw) := mul_le_mul_of_nonneg_left (min_le_left _ _) hiw0.le
      _ = cw := by rw [mul_comm, div_mul_cancel₀ _ (ne_of_gt hiw0)]
  have hhle : ih * min (cw / iw) (ch / ih) ≤ ch := by
    calc ih * min (cw / iw) (ch / ih)
        ≤ ih * (ch / ih) := mul_le_mul_of_nonneg_left (min_le_right _ _) hih0.le
      _ = ch := by rw [mul_comm, div_mul_cancel₀ _ (ne_of_gt hih0)]
  refine ⟨⟨rfl, rfl⟩,
    ⟨show (cw - iw * min (cw / iw) (ch / ih)) / 2 * 2
          + iw * min (cw / iw) (ch / ih) = cw by ring,
      show (ch - ih * min (cw / iw) (ch / ih)) / 2 * 2
          + ih * min (cw / iw) (ch / ih) = ch by ring⟩,
    ⟨hwle, hhle,
      show (0 : ℚ) ≤ (cw - iw * min (cw / iw) (ch / ih)) / 2 by linarith,
      show (0 : ℚ) ≤ (ch - ih * min (cw / iw) (ch / ih)) / 2 by linarith⟩,
    show iw * min (cw / iw) (ch / ih) * ih
        = ih * min (cw / iw) (ch / ih) * iw by ring,
    ?_, ?_⟩
  · simp only [aspectFitRect, RectQ.mk.injEq]
    norm_num
  · simp only [calculateAspectRatioFit, jsRound]
    norm_num

/-- Witness for C7 at the concrete §8 scenario input. -/
theorem claim_C7_witness :
    (aspectFitRect ⟨4000, 3000⟩ ⟨800, 600⟩).w
      = (4000 : ℚ) * min ((800 : ℚ) / 4000) ((600 : ℚ) / 3000) :=
  (claim_C7_aspectFit ⟨4000, 3000⟩ ⟨800, 600⟩ (by norm_num) (by norm_num)
    (by norm_num) (by norm_num)).1.1

/-- C9: converting a view point to image space (`viewToImage`, the
`exportJPEG` mapping) and back with the inverse conversion (`imageToView`,
the `makePreviewCIImage` placement plus the `bounds.height - y` flip)
reproduces the point exactly over the rationals — in particular within the
claimed 1e-6 tolerance — for all positive image and container dimensions. -/
theorem claim_C9_roundtrip (img cont : SizeQ) (p : Point)
    (hiw : 0 < img.w) (hih : 0 < img.h) (hcw : 0 < cont.w) (hch : 0 < cont.h) :
    imageToView img cont (viewToImage img cont p) = p := by
  obtain ⟨px, py⟩ := p
  have hm : 0 < min (cont.w / img.w) (cont.h / img.h) :=
    lt_min (div_pos hcw hiw) (div_pos hch hih)
  have hfw : img.w * min (cont.w / img.w) (cont.h / img.h) ≠ 0 :=
    ne_of_gt (mul_pos hiw hm)
  have hfh : img.h * min (cont.w / img.w) (cont.h / img.h) ≠ 0 :=
    ne_of_gt (mul_pos hih hm)
  simp only [viewToImage, imageToView, aspectFitRect, Point.mk.injEq]
  constructor
  · field_simp
    ring
  · field_simp
    ring

/-- Witness for C9 at a concrete in-bounds point. -/
theorem claim_C9_witness :
    imageToView ⟨4000, 3000⟩ ⟨800, 600⟩
        (viewToImage ⟨4000, 3000⟩ ⟨800, 600⟩ ⟨123, 45⟩) = ⟨123, 45⟩ :=
  claim_C9_roundtrip ⟨4000, 3000⟩ ⟨800, 600⟩ ⟨123, 45⟩ (by norm_num)
    (by norm_num) (by norm_num) (by norm_num)

/-- C8 counterexample: at center `(0,0)`, output coordinate `p = (1,0)`,
radius `2` and strength `1` we have `t = 1/2` and `amount = 1/4`; the
claim's sample coordinate `p - d * amount` (with `d = p - center`) would
be `(3/4, 0)`, but the shader computes `coord - toCenter * amount` with
`toCenter = center - coord`, i.e. `p + d * amount = (5/4, 0)` — the
displacement has the opposite sign from the claim. -/
theorem claim_C8_counterexample :
    bulgeFragSample ⟨0, 0⟩ ⟨1, 0⟩ 2 1 = ⟨5 / 4, 0⟩
    ∧ bulgeFragSample ⟨0, 0⟩ ⟨1, 0⟩ 2 1 ≠ ⟨3 / 4, 0⟩ := by
  have h : bulgeFragSample ⟨0, 0⟩ ⟨1, 0⟩ 2 1 = ⟨5 / 4, 0⟩ := by
    simp only [bulgeFragSample, glLength]
    norm_num [Vec2.mk.injEq]
  refine ⟨h, ?_⟩
  rw [h]
  simp only [Vec2.mk.injEq, ne_eq]
  norm_num

/-- C8 (amended): for every output coordinate `p`, if
`|p - center| >= radius` the shader samples the source at `p` itself
(no displacement); otherwise, with `t = |p - center| / radius` and
`d = p - center`, the sample coordinate is `p + d * amount` (the shader
subtracts `(center - p) * amount`, so the displacement has the opposite
sign from the claim's `p - d * amount`), where
`amount = strength * (1 - t)^2` for bulge (`strength > 0`) and
`amount = -|strength| * (1 - t^2)` otherwise; the shader performs no
clamping of the sample coordinate. -/
theorem claim_C8_amended (center p : Vec2) (radius strength : ℝ) :
    (radius ≤ glLength ⟨center.x - p.x, center.y - p.y⟩ →
      bulgeFragSample center p radius strength = p)
    ∧ (glLength ⟨center.x - p.x, center.y - p.y⟩ < radius →
      bulgeFragSample center p radius strength =
        ⟨p.x + (p.x - center.x)
            * claimAmount
                (glLength ⟨center.x - p.x, center.y - p.y⟩ / radius) strength,
          p.y + (p.y - center.y)
            * claimAmount
                (glLength ⟨center.x - p.x, center.y - p.y⟩ / radius) strength⟩) := by
  constructor
  · intro h
    simp only [bulgeFragSample]
    rw [if_neg (not_lt.mpr h)]
  · intro h
    simp only [bulgeFragSample, claimAmount]
    rw [if_pos h]
    by_cases hs : strength > 0
    · rw [if_pos hs, if_pos hs]
      rw [Vec2.mk.injEq]
      constructor <;> ring
    · rw [if_neg hs, if_neg hs]
      rw [Vec2.mk.injEq]
      constructor <;> ring

/-- Witness for C8 (amended) at the concrete inputs of the counterexample:
one point strictly inside the radius and one outside. -/
theorem claim_C8_amended_witness :
    (glLength ⟨(0 : ℝ) - 1, 0 - 0⟩ < 2
      ∧ bulgeFragSample ⟨0, 0⟩ ⟨1, 0⟩ 2 1
          = ⟨1 + (1 - 0) * claimAmount (glLength ⟨(0 : ℝ) - 1, 0 - 0⟩ / 2) 1,
              0 + (0 - 0) * claimAmount (glLength ⟨(0 : ℝ) - 1, 0 - 0⟩ / 2) 1⟩)
    ∧ ((2 : ℝ) ≤ glLength ⟨(0 : ℝ) - 3, 0 - 0⟩
      ∧ bulgeFragSample ⟨0, 0⟩ ⟨3, 0⟩ 2 1 = ⟨3, 0⟩) := by
  have h1 : glLength ⟨(0 : ℝ) - 1, 0 - 0⟩ < 2 := by
    simp only [glLength]
    norm_num
  have h3 : (2 : ℝ) ≤ glLength ⟨(0 : ℝ) - 3, 0 - 0⟩ := by
    simp only [glLength]
    rw [show ((0 : ℝ) - 3) ^ 2 + (0 - 0) ^ 2 = 3 ^ 2 by ring]
    rw [Real.sqrt_sq (by norm_num : (0 : ℝ) ≤ 3)]
    norm_num
  exact ⟨⟨h1, (claim_C8_amended ⟨0, 0⟩ ⟨1, 0⟩ 2 1).2 h1⟩,
    ⟨h3, (claim_C8_amended ⟨0, 0⟩ ⟨3, 0⟩ 2 1).1 h3⟩⟩

/-- Predicate selecting an operation of kind `t` carrying parameter key
`k` (meaningful for `t` equal to `bodyParam` or `faceParam`). -/
def isParamOf (t : OpType) (k : String) (o : Operation) : Bool :=
  decide (o.type = t) && decide (o.paramKey = some k)

/-- Membership in a single `pushNew` step. -/
lemma mem_pushNew {α : Type} [DecidableEq α] (acc : List α) (x y : α) :
    y ∈ pushNew acc x ↔ y ∈ acc ∨ y = x := by
  unfold pushNew
  split
  · rename_i hx
    constructor
    · exact fun h => Or.inl h
    · rintro (h | rfl)
      · exact h
      · exact hx
  · simp

/-- Membership in a `pushNew` fold: exactly the accumulator and the list. -/
lemma mem_foldl_pushNew {α : Type} [DecidableEq α] (l : List α)
    (acc : List α) (y : α) :
    y ∈ l.foldl pushNew acc ↔ y ∈ acc ∨ y ∈ l := by
  induction l generalizing acc with
  | nil => simp
  | cons a l ih =>
      rw [List.foldl_cons, ih, mem_pushNew]
      constructor
      · rintro ((h | rfl) | h)
        · exact Or.inl h
        · exact Or.inr (List.mem_cons_self _ _)
        · exact Or.inr (List.mem_cons_of_mem _ h)
      · rintro (h | h)
        · exact Or.inl (Or.inl h)
        · rcases List.mem_cons.mp h with rfl | h
          · exact Or.inl (Or.inr rfl)
          · exact Or.inr h

/-- A `pushNew` fold over a duplicate-free accumulator is duplicate-free. -/
lemma nodup_foldl_pushNew {α : Type} [DecidableEq α] (l : List α)
    (acc : List α) (h : acc.Nodup) : (l.foldl pushNew acc).Nodup := by
  induction l generalizing acc with
  | nil => exact h
  | cons a l ih =>
      rw [List.foldl_cons]
      apply ih
      unfold pushNew
      split
      · exact h
      · rename_i ha
        rw [List.nodup_append]
        refine ⟨h, List.nodup_singleton _, ?_⟩
        intro x hx hx'
        rw [List.mem_singleton] at hx'
        exact ha (hx' ▸ hx)

/-- A `flatMap` whose entries vanish except possibly at one key of a
duplicate-free index list collapses to that single entry. -/
lemma flatMap_single {α β : Type} [DecidableEq α] (l : List α)
    (f : α → List β) (t : α) (hnd : l.Nodup)
    (h0 : ∀ x ∈ l, x ≠ t → f x = []) :
    l.flatMap f = if t ∈ l then f t else [] := by
  induction l with
  | nil => simp
  | cons a l ih =>
      rw [List.flatMap_cons]
      rcases List.nodup_cons.mp hnd with ⟨ha, hl⟩
      by_cases hat : a = t
      · subst hat
        have hrest : l.flatMap f = [] :=
          List.flatMap_eq_nil_iff.mpr fun x hx =>
            h0 x (List.mem_cons_of_mem _ hx) fun he => ha (he ▸ hx)
        rw [hrest, if_pos (List.mem_cons_self _ _)]
        simp
      · rw [h0 a (List.mem_cons_self _ _) hat]
        rw [ih hl fun x hx hxt => h0 x (List.mem_cons_of_mem _ hx) hxt]
        by_cases htl : t ∈ l
        · rw [if_pos htl, if_pos (List.mem_cons_of_mem _ htl)]
          simp
        · rw [if_neg htl, if_neg ?_]
          · simp
          · rw [List.mem_cons]
            rintro (rfl | h)
            · exact hat rfl
            · exact htl h

/-- An option's `toList` has at most one element; for a list of length at
most one, `getLast?.toList` is the list itself. -/
lemma getLast?_toList_of_length_le_one {α : Type} (l : List α)
    (h : l.length ≤ 1) : l.getLast?.toList = l := by
  match l with
  | [] => rfl
  | [a] => rfl
  | a :: b :: l => simp at h

/-- Every element produced by `coalesceGroup` on a single-type group has
that group's operation type. -/
lemma mem_coalesceGroup_type (t : OpType) (g : List Operation)
    (hg : ∀ o ∈ g, o.type = t) :
    ∀ o ∈ coalesceGroup g, o.type = t := by
  intro o ho
  unfold coalesceGroup at ho
  split at ho
  · exact hg o ho
  · split at ho
    · simp at ho
    · rename_i first heq
      have hfg : first ∈ g := by
        cases g with
        | nil => simp at heq
        | cons a g' =>
            simp at heq
            exact heq ▸ List.mem_cons_self a g'
      split at ho
      · rename_i hliq
        have hts : t = OpType.liquify := (hg first hfg).symm.trans hliq
        split at ho
        · split at ho
          · rename_i lastOp hlast
            rw [List.mem_singleton] at ho
            subst ho
            rw [hts]
            rfl
          · simp at ho
        · simp at ho
      · split at ho
        · unfold paramCoalesce at ho
          rcases List.mem_filterMap.mp ho with ⟨k', _, hfk'⟩
          exact hg o
            (List.mem_of_mem_filter (List.mem_of_getLast?_eq_some hfk'))
        · split at ho
          · split at ho
            · rename_i lastOp hlast
              rw [List.mem_singleton] at ho
              subst ho
              exact hg _ (List.mem_of_getLast?_eq_some hlast)
            · simp at ho
          · exact hg o ho

/-- Filtering a keyed `filterMap` over a duplicate-free key list by a
predicate that holds exactly on the entry of key `k` keeps exactly that
entry. -/
lemma filter_filterMap_single {α β : Type} [DecidableEq α]
    (keys : List α) (f : α → Option β) (p : β → Bool) (k : α)
    (hnd : keys.Nodup)
    (hp : ∀ k' o', f k' = some o' → p o' = decide (k' = k)) :
    (keys.filterMap f).filter p = if k ∈ keys then (f k).toList else [] := by
  induction keys with
  | nil => simp
  | cons a ks ih =>
      rcases List.nodup_cons.mp hnd with ⟨ha, hks⟩
      by_cases hak : a = k
      · subst hak
        have hrest : (ks.filterMap f).filter p = [] := by
          rw [List.filter_eq_nil_iff]
          intro b hb
          rcases List.mem_filterMap.mp hb with ⟨k', hk', hfk'⟩
          rw [hp k' b hfk']
          simp only [decide_eq_true_eq]
          exact fun he => ha (he ▸ hk')
        cases hf : f a with
        | none =>
            rw [List.filterMap_cons_none hf, hrest,
              if_pos (List.mem_cons_self _ _)]
            rfl
        | some b =>
            rw [List.filterMap_cons_some hf]
            rw [List.filter_cons_of_pos (by rw [hp a b hf]; simp), hrest,
              if_pos (List.mem_cons_self _ _)]
            rfl
      · have hnotc : ¬ k ∈ a :: ks → ¬ k ∈ ks := fun hc h =>
          hc (List.mem_cons_of_mem _ h)

        cases hf : f a with
        | none =>
            rw [List.filterMap_cons_none hf, ih hks]
            by_cases htl : k ∈ ks
            · rw [if_pos htl, if_pos (List.mem_cons_of_mem _ htl)]
            · rw [if_neg htl, if_neg (fun hc => by
                rcases List.mem_cons.mp hc with rfl | h
                · exact hak rfl
                · exact htl h)]
        | some b =>
            rw [List.filterMap_cons_some hf]
            rw [List.filter_cons_of_neg (by
              rw [hp a b hf]
              simp only [decide_eq_true_eq]
              exact hak)]
            rw [ih hks]
            by_cases htl : k ∈ ks
            · rw [if_pos htl, if_pos (List.mem_cons_of_mem _ htl)]
            · rw [if_neg htl, if_neg (fun hc => by
                rcases List.mem_cons.mp hc with rfl | h
                · exact hak rfl
                · exact htl h)]

/-- On a group whose operations all have parameter kind `t`, the
`paramMap` pass keeps exactly the last operation for each key. -/
lemma paramCoalesce_filter (t : OpType) (k : String) (g : List Operation)
    (hg : ∀ o ∈ g, o.type = t) :
    (paramCoalesce g).filter (isParamOf t k)
      = (g.filter (isParamOf t k)).getLast?.toList := by
  have hfil : g.filter (isParamOf t k)
      = g.filter fun o => decide (o.paramKey = some k) :=
    List.filter_congr fun o ho => by
      unfold isParamOf
      simp [hg o ho]
  rw [hfil]
  unfold paramCoalesce
  rw [filter_filterMap_single (distinctParamKeys g) _ (isParamOf t k) k
      (nodup_foldl_pushNew _ _ List.nodup_nil) ?_]
  · by_cases hk : k ∈ distinctParamKeys g
    · rw [if_pos hk]
    · rw [if_neg hk]
      have hnil : (g.filter fun o => decide (o.paramKey = some k)) = [] := by
        rw [List.filter_eq_nil_iff]
        intro o ho hko
        apply hk
        unfold distinctParamKeys
        rw [mem_foldl_pushNew]
        right
        exact List.mem_filterMap.mpr ⟨o, ho, by simpa using hko⟩
      rw [hnil]
      rfl
  · intro k' o' hk'
    have ho'mem : o' ∈ g.filter fun o => decide (o.paramKey = some k') :=
      List.mem_of_getLast?_eq_some hk'
    have ho'g : o' ∈ g := List.mem_of_mem_filter ho'mem
    have hkey : o'.paramKey = some k' := by
      have := (List.mem_filter.mp ho'mem).2
      simpa using this
    unfold isParamOf
    rw [hkey]
    have htype : decide (o'.type = t) = true := by simp [hg o' ho'g]
    rw [htype, Bool.true_and]
    exact decide_eq_decide.mpr (by simp)

/-- On a group whose operations all have parameter kind `t` (`bodyParam`
or `faceParam`), `coalesceGroup` keeps exactly the last operation with
each key. -/
lemma coalesceGroup_param_filter (t : OpType) (k : String)
    (ht : t = OpType.bodyParam ∨ t = OpType.faceParam)
    (g : List Operation) (hg : ∀ o ∈ g, o.type = t) :
    (coalesceGroup g).filter (isParamOf t k)
      = (g.filter (isParamOf t k)).getLast?.toList := by
  unfold coalesceGroup
  split
  · rename_i hlen
    symm
    apply getLast?_toList_of_length_le_one
    calc (g.filter (isParamOf t k)).length
        ≤ g.length := List.length_filter_le _ _
      _ = 1 := hlen
  · split
    · rename_i heq
      rw [List.head?_eq_none_iff.mp heq]
      rfl
    · rename_i first heq
      have hfg : first ∈ g := by
        cases g with
        | nil => simp at heq
        | cons a g' =>
            simp at heq
            exact heq ▸ List.mem_cons_self a g'
      have hft : first.type = t := hg first hfg
      rw [if_neg (by
        rw [hft]
        rcases ht with rfl | rfl <;> simp)]
      rw [if_pos (by rw [hft]; exact ht)]
      exact paramCoalesce_filter t k g hg

/-- After `optimizeOperations`, the operations of parameter kind `t` with
key `k` are exactly the last pre-coalesce operation of that kind and key
(in particular there is at most one). -/
lemma optimize_param_filter (t : OpType)
    (ht : t = OpType.bodyParam ∨ t = OpType.faceParam)
    (s : OperationStackManager) (k : String) :
    (optimizeOperations s).operations.filter (isParamOf t k)
      = ((s.operations.filter (isParamOf t k)).getLast?).toList := by
  simp only [optimizeOperations]
  rw [List.filter_flatMap]
  have hnd : (distinctTypes s.operations).Nodup :=
    nodup_foldl_pushNew _ _ List.nodup_nil
  rw [flatMap_single _ _ t hnd ?_]
  · by_cases hmem : t ∈ distinctTypes s.operations
    · rw [if_pos hmem]
      rw [coalesceGroup_param_filter t k ht _ fun o' ho' => by
        have := (List.mem_filter.mp ho').2
        simpa using this]
      rw [List.filter_filter]
      have hpred : (fun a => isParamOf t k a && decide (a.type = t))
          = isParamOf t k := by
        funext o
        unfold isParamOf
        cases h1 : decide (o.type = t) <;> simp [h1]
      rw [hpred]
    · rw [if_neg hmem]
      have hnil : s.operations.filter (isParamOf t k) = [] := by
        rw [List.filter_eq_nil_iff]
        intro o ho hp
        apply hmem
        have hot : o.type = t := by
          unfold isParamOf at hp
          have := (Bool.and_eq_true _ _).mp hp
          exact of_decide_eq_true this.1
        unfold distinctTypes
        rw [mem_foldl_pushNew]
        exact Or.inr (hot ▸ List.mem_map_of_mem Operation.type ho)
      rw [hnil]
      rfl
  · intro t' ht' htne
    rw [List.filter_eq_nil_iff]
    intro o ho
    have htype : o.type = t' :=
      mem_coalesceGroup_type t' _
        (fun o' ho' => by
          have := (List.mem_filter.mp ho').2
          simpa using this) o ho
    unfold isParamOf
    simp [htype, htne]

/-- C5: after `optimizeOperations`, for every key at most one `bodyParam`
and at most one `faceParam` operation with that key remains, and it is the
last-appended operation for that key (stated as: the post-coalesce
operations of each parameter kind and key are exactly the last
pre-coalesce operation of that kind and key); in particular the §8
scenario — appending `faceParam{key:'eyeSize', value:5}` then
`faceParam{key:'eyeSize', value:8}` and coalescing — leaves exactly the
single operation `faceParam{key:'eyeSize', value:8}`. -/
theorem claim_C5_coalesce_params :
    ((optimizeOperations s2eyes).operations
        = [Operation.faceParam "eyeSize" 8])
    ∧ ∀ (s : OperationStackManager) (k : String),
        ((optimizeOperations s).operations.filter (isParamOf OpType.bodyParam k)
            = ((s.operations.filter
                (isParamOf OpType.bodyParam k)).getLast?).toList
          ∧ ((optimizeOperations s).operations.filter
              (isParamOf OpType.bodyParam k)).length ≤ 1)
        ∧ ((optimizeOperations s).operations.filter (isParamOf OpType.faceParam k)
            = ((s.operations.filter
                (isParamOf OpType.faceParam k)).getLast?).toList
          ∧ ((optimizeOperations s).operations.filter
              (isParamOf OpType.faceParam k)).length ≤ 1) := by
  refine ⟨by decide, fun s k => ⟨⟨optimize_param_filter _ (Or.inl rfl) s k, ?_⟩,
    ⟨optimize_param_filter _ (Or.inr rfl) s k, ?_⟩⟩⟩
  · rw [optimize_param_filter _ (Or.inl rfl) s k]
    cases (s.operations.filter (isParamOf OpType.bodyParam k)).getLast? <;> simp
  · rw [optimize_param_filter _ (Or.inr rfl) s k]
    cases (s.operations.filter (isParamOf OpType.faceParam k)).getLast? <;> simp

end PlushAI
